import Mathlib

/-!
Verification development for the Stylus cupcake vending-machine contract
(`src/lib.rs`).  The contract keeps two per-account `mapping(address => uint256)`
fields, `cupcake_balances` and `cupcake_distribution_times`, and exposes two
public operations, `give_cupcake_to` and `get_cupcake_balance_for`.

Embedding conventions:
* `U256` values are naturals; arithmetic of the `alloy_primitives::U256` type
  (the `ruint` `Uint<256, 4>`, whose `+` operator is arithmetic modulo `2^256`)
  is modelled as `Nat` addition followed by `% U256_MOD`.
* Accounts (`Address`, opaque 20-byte identifiers) are modelled as naturals.
* The host clock `self.vm().block_timestamp()` returns a `u64`; within one
  transaction it is constant, so both reads of it inside `give_cupcake_to`
  are modelled by a single parameter `block_timestamp`.  Theorems that need
  the `u64` range carry an explicit `< U64_MOD` hypothesis.
* The Rust functions return `Result<_, Vec<u8>>`, modelled as
  `Except (List Nat) _`.
-/

/-- The modulus `2 ^ 256` of the 256-bit unsigned integers (`U256`). -/
def U256_MOD : Nat := 2 ^ 256

/-- The modulus `2 ^ 64`: host block timestamps are `u64` values. -/
def U64_MOD : Nat := 2 ^ 64

/-- Accounts are opaque 20-byte identifiers supplied by the caller; modelled
as naturals (no claim depends on the 160-bit width). -/
abbrev Account : Type := Nat

/-- Persistent storage of the contract: the two `sol_storage!` mappings, with
zero as the default value of an absent key (so each mapping is total). -/
structure VendingMachine where
  cupcake_balances : Account → Nat
  cupcake_distribution_times : Account → Nat

/-- The all-zero storage a fresh deployment starts from. -/
def initialState : VendingMachine :=
  { cupcake_balances := fun _ => 0, cupcake_distribution_times := fun _ => 0 }

/-- Embedding of `VendingMachine::give_cupcake_to` from `src/lib.rs`:
reads the last distribution time, forms `last + 5` in `U256` (wrapping
modular addition), compares it to the block timestamp with unsigned `<=`;
on success increments the balance by 1 (again wrapping `U256` addition),
records the timestamp and returns `Ok(true)`; otherwise only emits a console
diagnostic (no state effect, not modelled) and returns `Ok(false)`. -/
def give_cupcake_to (s : VendingMachine) (block_timestamp : Nat) (user_address : Account) :
    Except (List Nat) (Bool × VendingMachine) :=
  let last_distribution := s.cupcake_distribution_times user_address
  let five_seconds_from_last_distribution := (last_distribution + 5) % U256_MOD
  let current_time := block_timestamp
  let user_can_receive_cupcake := five_seconds_from_last_distribution ≤ current_time
  if user_can_receive_cupcake then
    let balance := (s.cupcake_balances user_address + 1) % U256_MOD
    let s₁ : VendingMachine :=
      { s with cupcake_balances := Function.update s.cupcake_balances user_address balance }
    let new_distribution_time := block_timestamp
    let s₂ : VendingMachine :=
      { s₁ with cupcake_distribution_times :=
          Function.update s₁.cupcake_distribution_times user_address new_distribution_time }
    Except.ok (true, s₂)
  else
    Except.ok (false, s)

/-- Embedding of `VendingMachine::get_cupcake_balance_for`: a read-only
(`&self`) projection of `cupcake_balances` wrapped in `Ok`. -/
def get_cupcake_balance_for (s : VendingMachine) (user_address : Account) :
    Except (List Nat) Nat :=
  Except.ok (s.cupcake_balances user_address)

/-- The storage produced by the success branch of `give_cupcake_to`. -/
def successState (s : VendingMachine) (block_timestamp : Nat) (a : Account) : VendingMachine :=
  { cupcake_balances :=
      Function.update s.cupcake_balances a ((s.cupcake_balances a + 1) % U256_MOD),
    cupcake_distribution_times :=
      Function.update s.cupcake_distribution_times a block_timestamp }

/-- Total projection of `give_cupcake_to` to its grant decision and resulting
storage; the `error` fallback is dead code (the function always returns `ok`). -/
def giveRun (s : VendingMachine) (now : Nat) (a : Account) : Bool × VendingMachine :=
  match give_cupcake_to s now a with
  | .ok r => r
  | .error _ => (false, s)

/-- An external invocation of one of the two public operations, together with
the block timestamp the host supplies for the transaction (irrelevant for the
read-only query). -/
inductive Op where
  | give (a : Account) (now : Nat)
  | getBalance (a : Account)

/-- An operation is valid when its block timestamp fits the `u64` type the
host clock returns. -/
def Op.valid : Op → Prop
  | .give _ now => now < U64_MOD
  | .getBalance _ => True

instance (op : Op) : Decidable op.valid :=
  match op with
  | .give _ now => inferInstanceAs (Decidable (now < U64_MOD))
  | .getBalance _ => inferInstanceAs (Decidable True)

/-- The storage after one external invocation (the query is `&self`,
so it never changes storage). -/
def step (s : VendingMachine) : Op → VendingMachine
  | .give a now => (giveRun s now a).2
  | .getBalance _ => s

/-- The storage after a sequence of external invocations. -/
def run (s : VendingMachine) (ops : List Op) : VendingMachine :=
  ops.foldl step s

/-- The observable trace of a sequence of `give_cupcake_to` invocations:
each event `(a, now)` is recorded together with the boolean the call
returned. -/
def giveTrace (s : VendingMachine) : List (Account × Nat) → List (Account × Nat × Bool)
  | [] => []
  | e :: rest =>
    (e.1, e.2, (giveRun s e.2 e.1).1) :: giveTrace (giveRun s e.2 e.1).2 rest

/-- The host times of a sequence of give events are non-decreasing. -/
def timesNondec : List (Account × Nat) → Bool
  | [] => true
  | [_] => true
  | e₁ :: e₂ :: rest => decide (e₁.2 ≤ e₂.2) && timesNondec (e₂ :: rest)

/-- A storage in which account 0 already holds the maximal `U256` balance. -/
def overflowState : VendingMachine :=
  { cupcake_balances := Function.update (fun _ => 0) 0 (U256_MOD - 1),
    cupcake_distribution_times := fun _ => 0 }

/-- Representation invariant of reachable storage: every recorded
distribution time is a `u64` value, and the balance is so small (bounded by
a fifth of the last grant time plus one) that incrementing it cannot wrap. -/
def timeBoundInv (s : VendingMachine) : Prop :=
  ∀ a, s.cupcake_distribution_times a < U64_MOD ∧
    5 * s.cupcake_balances a ≤ s.cupcake_distribution_times a + 5

/-- The domain-coupling predicate of claim C6: a zero balance forces a zero
distribution time, and a non-zero distribution time forces a positive
balance. -/
def coupling (s : VendingMachine) : Prop :=
  ∀ a, (s.cupcake_balances a = 0 → s.cupcake_distribution_times a = 0) ∧
    (s.cupcake_distribution_times a ≠ 0 → 1 ≤ s.cupcake_balances a)

theorem give_eq (s : VendingMachine) (now : Nat) (a : Account) :
    give_cupcake_to s now a =
      if (s.cupcake_distribution_times a + 5) % U256_MOD ≤ now then
        Except.ok (true, successState s now a)
      else
        Except.ok (false, s) := rfl

theorem giveRun_eq (s : VendingMachine) (now : Nat) (a : Account) :
    giveRun s now a =
      if (s.cupcake_distribution_times a + 5) % U256_MOD ≤ now then
        (true, successState s now a)
      else
        (false, s) := by
  unfold giveRun
  rw [give_eq]
  by_cases h : (s.cupcake_distribution_times a + 5) % U256_MOD ≤ now <;> simp [h]

theorem give_cupcake_to_ok (s : VendingMachine) (now : Nat) (a : Account) :
    give_cupcake_to s now a = Except.ok (giveRun s now a) := by
  rw [give_eq, giveRun_eq]
  by_cases h : (s.cupcake_distribution_times a + 5) % U256_MOD ≤ now <;> simp [h]

theorem successState_balances_self (s : VendingMachine) (now : Nat) (a : Account) :
    (successState s now a).cupcake_balances a = (s.cupcake_balances a + 1) % U256_MOD := by
  simp [successState]

theorem successState_times_self (s : VendingMachine) (now : Nat) (a : Account) :
    (successState s now a).cupcake_distribution_times a = now := by
  simp [successState]

theorem successState_balances_other (s : VendingMachine) (now : Nat) (a b : Account)
    (h : b ≠ a) : (successState s now a).cupcake_balances b = s.cupcake_balances b := by
  simp [successState, Function.update_noteq h]

theorem successState_times_other (s : VendingMachine) (now : Nat) (a b : Account)
    (h : b ≠ a) :
    (successState s now a).cupcake_distribution_times b = s.cupcake_distribution_times b := by
  simp [successState, Function.update_noteq h]

theorem time_sum_no_wrap (x : Nat) (hx : x < U64_MOD) : (x + 5) % U256_MOD = x + 5 := by
  apply Nat.mod_eq_of_lt
  have h : U64_MOD + 5 ≤ U256_MOD := by norm_num [U64_MOD, U256_MOD]
  omega

theorem giveRun_true_elim (s : VendingMachine) (now : Nat) (a : Account)
    (h : (giveRun s now a).1 = true) :
    (s.cupcake_distribution_times a + 5) % U256_MOD ≤ now ∧
    (giveRun s now a).2 = successState s now a := by
  rw [giveRun_eq] at h ⊢
  by_cases hc : (s.cupcake_distribution_times a + 5) % U256_MOD ≤ now
  · rw [if_pos hc]
    exact ⟨hc, rfl⟩
  · rw [if_neg hc] at h
    simp at h

theorem giveRun_false_elim (s : VendingMachine) (now : Nat) (a : Account)
    (h : (giveRun s now a).1 = false) : (giveRun s now a).2 = s := by
  rw [giveRun_eq] at h ⊢
  by_cases hc : (s.cupcake_distribution_times a + 5) % U256_MOD ≤ now
  · rw [if_pos hc] at h
    simp at h
  · rw [if_neg hc]

theorem giveRun_other (s : VendingMachine) (now : Nat) (a b : Account) (h : b ≠ a) :
    (giveRun s now a).2.cupcake_balances b = s.cupcake_balances b ∧
    (giveRun s now a).2.cupcake_distribution_times b = s.cupcake_distribution_times b := by
  rw [giveRun_eq]
  by_cases hc : (s.cupcake_distribution_times a + 5) % U256_MOD ≤ now
  · rw [if_pos hc]
    exact ⟨successState_balances_other s now a b h, successState_times_other s now a b h⟩
  · rw [if_neg hc]
    exact ⟨rfl, rfl⟩

theorem timeBoundInv_initial : timeBoundInv initialState := by
  intro a
  constructor
  · norm_num [initialState, U64_MOD]
  · norm_num [initialState]

theorem coupling_initial : coupling initialState := by
  intro a
  exact ⟨fun _ => rfl, fun h => absurd rfl h⟩

theorem balance_increment_no_wrap (s : VendingMachine) (hinv : timeBoundInv s) (a : Account) :
    s.cupcake_balances a + 1 < U256_MOD := by
  have h := hinv a
  have h2 : U64_MOD + 5 < U256_MOD := by norm_num [U64_MOD, U256_MOD]
  omega

theorem timeBoundInv_step (s : VendingMachine) (op : Op) (hop : op.valid)
    (hinv : timeBoundInv s) : timeBoundInv (step s op) := by
  cases op with
  | getBalance a => exact hinv
  | give a now =>
    have hnow : now < U64_MOD := hop
    show timeBoundInv (giveRun s now a).2
    rcases hg : (giveRun s now a).1 with _ | _
    · rw [giveRun_false_elim s now a hg]
      exact hinv
    · obtain ⟨hc, hs⟩ := giveRun_true_elim s now a hg
      rw [hs]
      intro b
      by_cases hb : b = a
      · subst hb
        rw [time_sum_no_wrap _ (hinv b).1] at hc
        rw [successState_balances_self, successState_times_self,
          Nat.mod_eq_of_lt (balance_increment_no_wrap s hinv b)]
        have h := hinv b
        exact ⟨hnow, by omega⟩
      · rw [successState_balances_other s now a b hb, successState_times_other s now a b hb]
        exact hinv b

theorem coupling_step (s : VendingMachine) (op : Op) (hop : op.valid)
    (hinv : timeBoundInv s) (hcpl : coupling s) : coupling (step s op) := by
  cases op with
  | getBalance a => exact hcpl
  | give a now =>
    show coupling (giveRun s now a).2
    rcases hg : (giveRun s now a).1 with _ | _
    · rw [giveRun_false_elim s now a hg]
      exact hcpl
    · obtain ⟨_, hs⟩ := giveRun_true_elim s now a hg
      rw [hs]
      intro b
      by_cases hb : b = a
      · subst hb
        rw [successState_balances_self,
          Nat.mod_eq_of_lt (balance_increment_no_wrap s hinv b)]
        exact ⟨by omega, fun _ => by omega⟩
      · rw [successState_balances_other s now a b hb, successState_times_other s now a b hb]
        exact hcpl b

theorem balances_mono_step (s : VendingMachine) (op : Op) (hop : op.valid)
    (hinv : timeBoundInv s) (a : Account) :
    s.cupcake_balances a ≤ (step s op).cupcake_balances a := by
  cases op with
  | getBalance _ => exact le_rfl
  | give b now =>
    show s.cupcake_balances a ≤ (giveRun s now b).2.cupcake_balances a
    rcases hg : (giveRun s now b).1 with _ | _
    · rw [giveRun_false_elim s now b hg]
    · obtain ⟨_, hs⟩ := giveRun_true_elim s now b hg
      rw [hs]
      by_cases hb : a = b
      · subst hb
        rw [successState_balances_self,
          Nat.mod_eq_of_lt (balance_increment_no_wrap s hinv a)]
        omega
      · rw [successState_balances_other s now b a hb]

theorem timeBoundInv_run (s : VendingMachine) (ops : List Op)
    (hops : ∀ op ∈ ops, op.valid) (hinv : timeBoundInv s) : timeBoundInv (run s ops) := by
  induction ops generalizing s with
  | nil => exact hinv
  | cons op rest ih =>
    exact ih (step s op) (fun o ho => hops o (List.mem_cons_of_mem _ ho))
      (timeBoundInv_step s op (hops op (List.mem_cons_self _ _)) hinv)

theorem coupling_run (s : VendingMachine) (ops : List Op)
    (hops : ∀ op ∈ ops, op.valid) (hinv : timeBoundInv s) (hcpl : coupling s) :
    coupling (run s ops) := by
  induction ops generalizing s with
  | nil => exact hcpl
  | cons op rest ih =>
    exact ih (step s op) (fun o ho => hops o (List.mem_cons_of_mem _ ho))
      (timeBoundInv_step s op (hops op (List.mem_cons_self _ _)) hinv)
      (coupling_step s op (hops op (List.mem_cons_self _ _)) hinv hcpl)

theorem balances_mono_run (s : VendingMachine) (ops : List Op)
    (hops : ∀ op ∈ ops, op.valid) (hinv : timeBoundInv s) (a : Account) :
    s.cupcake_balances a ≤ (run s ops).cupcake_balances a := by
  induction ops generalizing s with
  | nil => exact le_rfl
  | cons op rest ih =>
    exact le_trans (balances_mono_step s op (hops op (List.mem_cons_self _ _)) hinv a)
      (ih (step s op) (fun o ho => hops o (List.mem_cons_of_mem _ ho))
        (timeBoundInv_step s op (hops op (List.mem_cons_self _ _)) hinv))

theorem grant_time_lower (evs : List (Account × Nat)) (s : VendingMachine) (a : Account)
    (T : Nat) (hv : ∀ e ∈ evs, e.2 < U64_MOD)
    (hT : T ≤ s.cupcake_distribution_times a)
    (hsmall : s.cupcake_distribution_times a < U64_MOD) :
    ∀ t, (a, t, true) ∈ giveTrace s evs → T + 5 ≤ t := by
  induction evs generalizing s with
  | nil =>
    intro t ht
    simp [giveTrace] at ht
  | cons e rest ih =>
    intro t ht
    rw [giveTrace] at ht
    rcases List.mem_cons.mp ht with heq | htail
    · obtain ⟨ha, htt, hg⟩ : a = e.1 ∧ t = e.2 ∧ true = (giveRun s e.2 e.1).1 := by
        simpa [Prod.ext_iff] using heq
      obtain ⟨hc, _⟩ := giveRun_true_elim s e.2 e.1 hg.symm
      rw [← ha, time_sum_no_wrap _ hsmall] at hc
      omega
    · have hvrest : ∀ e' ∈ rest, e'.2 < U64_MOD :=
        fun e' he' => hv e' (List.mem_cons_of_mem _ he')
      by_cases ha : a = e.1
      · rcases hg : (giveRun s e.2 e.1).1 with _ | _
        · rw [giveRun_false_elim s e.2 e.1 hg] at htail
          exact ih s hvrest hT hsmall t htail
        · obtain ⟨hc, hs⟩ := giveRun_true_elim s e.2 e.1 hg
          rw [← ha, time_sum_no_wrap _ hsmall] at hc
          rw [hs] at htail
          have hTa : T ≤ (successState s e.2 e.1).cupcake_distribution_times a := by
            rw [ha, successState_times_self]
            omega
          have hsm : (successState s e.2 e.1).cupcake_distribution_times a < U64_MOD := by
            rw [ha, successState_times_self]
            exact hv e (List.mem_cons_self _ _)
          exact ih (successState s e.2 e.1) hvrest hTa hsm t htail
      · obtain ⟨_, hpre⟩ := giveRun_other s e.2 e.1 a ha
        exact ih (giveRun s e.2 e.1).2 hvrest (hpre ▸ hT) (hpre ▸ hsmall) t htail

theorem cooldown_pairs_general (evs : List (Account × Nat)) (s : VendingMachine)
    (hv : ∀ e ∈ evs, e.2 < U64_MOD) (a : Account) (t₁ t₂ : Nat)
    (h₁ : (a, t₁, true) ∈ giveTrace s evs) (h₂ : (a, t₂, true) ∈ giveTrace s evs)
    (hlt : t₁ < t₂) : t₁ + 5 ≤ t₂ := by
  induction evs generalizing s with
  | nil =>
    simp [giveTrace] at h₁
  | cons e rest ih =>
    rw [giveTrace] at h₁ h₂
    have hvrest : ∀ e' ∈ rest, e'.2 < U64_MOD :=
      fun e' he' => hv e' (List.mem_cons_of_mem _ he')
    have hehead : e.2 < U64_MOD := hv e (List.mem_cons_self _ _)
    rcases List.mem_cons.mp h₁ with he₁ | ht₁ <;> rcases List.mem_cons.mp h₂ with he₂ | ht₂
    · obtain ⟨_, htt₁, _⟩ : a = e.1 ∧ t₁ = e.2 ∧ true = (giveRun s e.2 e.1).1 := by
        simpa [Prod.ext_iff] using he₁
      obtain ⟨_, htt₂, _⟩ : a = e.1 ∧ t₂ = e.2 ∧ true = (giveRun s e.2 e.1).1 := by
        simpa [Prod.ext_iff] using he₂
      omega
    · obtain ⟨ha, htt₁, hg⟩ : a = e.1 ∧ t₁ = e.2 ∧ true = (giveRun s e.2 e.1).1 := by
        simpa [Prod.ext_iff] using he₁
      obtain ⟨_, hs⟩ := giveRun_true_elim s e.2 e.1 hg.symm
      rw [hs] at ht₂
      have hTa : t₁ ≤ (successState s e.2 e.1).cupcake_distribution_times a := by
        rw [ha, successState_times_self]
        omega
      have hsm : (successState s e.2 e.1).cupcake_distribution_times a < U64_MOD := by
        rw [ha, successState_times_self]
        exact hehead
      exact grant_time_lower rest (successState s e.2 e.1) a t₁ hvrest hTa hsm t₂ ht₂
    · obtain ⟨ha, htt₂, hg⟩ : a = e.1 ∧ t₂ = e.2 ∧ true = (giveRun s e.2 e.1).1 := by
        simpa [Prod.ext_iff] using he₂
      obtain ⟨_, hs⟩ := giveRun_true_elim s e.2 e.1 hg.symm
      rw [hs] at ht₁
      have hTa : t₂ ≤ (successState s e.2 e.1).cupcake_distribution_times a := by
        rw [ha, successState_times_self]
        omega
      have hsm : (successState s e.2 e.1).cupcake_distribution_times a < U64_MOD := by
        rw [ha, successState_times_self]
        exact hehead
      have := grant_time_lower rest (successState s e.2 e.1) a t₂ hvrest hTa hsm t₁ ht₁
      omega
    · exact ih (giveRun s e.2 e.1).2 hvrest ht₁ ht₂

/-- C10: both public operations always return the `Ok` variant; the contract
never constructs the `Err(Vec<u8>)` branch (refusal is signalled by
`Ok(false)`). -/
theorem c10_total_success (s : VendingMachine) (now : Nat) (a : Account) :
    (∃ r, give_cupcake_to s now a = Except.ok r) ∧
    (∃ v, get_cupcake_balance_for s a = Except.ok v) :=
  ⟨⟨giveRun s now a, give_cupcake_to_ok s now a⟩, ⟨s.cupcake_balances a, rfl⟩⟩

/-- C1: `give_cupcake_to` grants exactly when `last_grant_at(a) + 5 ≤ now`
(non-strict unsigned comparison), and refuses exactly otherwise.  The
hypothesis `last + 5 < 2^256` rules out the wraparound of the 256-bit sum,
which is unreachable for stored timestamps (they are `u64` values). -/
theorem c1_grant_iff (s : VendingMachine) (a : Account) (now : Nat)
    (h : s.cupcake_distribution_times a + 5 < U256_MOD) :
    ((∃ s', give_cupcake_to s now a = Except.ok (true, s')) ↔
      s.cupcake_distribution_times a + 5 ≤ now) ∧
    ((∃ s', give_cupcake_to s now a = Except.ok (false, s')) ↔
      ¬ s.cupcake_distribution_times a + 5 ≤ now) := by
  have hmod : (s.cupcake_distribution_times a + 5) % U256_MOD =
      s.cupcake_distribution_times a + 5 := Nat.mod_eq_of_lt h
  by_cases hc : s.cupcake_distribution_times a + 5 ≤ now
  · have hcond : (s.cupcake_distribution_times a + 5) % U256_MOD ≤ now := by
      rw [hmod]; exact hc
    refine ⟨⟨fun _ => hc, fun _ => ⟨successState s now a, ?_⟩⟩,
            ⟨fun hex => ?_, fun hn => absurd hc hn⟩⟩
    · rw [give_eq, if_pos hcond]
    · obtain ⟨s', hs'⟩ := hex
      rw [give_eq, if_pos hcond] at hs'
      simp at hs'
  · have hcond : ¬ (s.cupcake_distribution_times a + 5) % U256_MOD ≤ now := by
      rw [hmod]; exact hc
    refine ⟨⟨fun hex => ?_, fun hle => absurd hle hc⟩, ⟨fun _ => hc, fun _ => ⟨s, ?_⟩⟩⟩
    · obtain ⟨s', hs'⟩ := hex
      rw [give_eq, if_neg hcond] at hs'
      simp at hs'
    · rw [give_eq, if_neg hcond]

theorem c1_grant_iff_witness :
    (initialState.cupcake_distribution_times 0 + 5 < U256_MOD) ∧
    (∃ s', give_cupcake_to initialState 5 0 = Except.ok (true, s')) :=
  ⟨by decide, ((c1_grant_iff initialState 0 5 (by decide)).1).mpr (by decide)⟩

/-- C2: a successful `give_cupcake_to(a)` at host time `now` stores `now` in
`cupcake_distribution_times[a]` and increments `cupcake_balances[a]` by
exactly 1.  The hypothesis excludes the `2^256 - 1` balance wraparound, which
is the separate overflow concern of claim C5. -/
theorem c2_success_effect (s : VendingMachine) (now : Nat) (a : Account)
    (s' : VendingMachine) (hs : give_cupcake_to s now a = Except.ok (true, s'))
    (hbal : s.cupcake_balances a + 1 < U256_MOD) :
    s'.cupcake_distribution_times a = now ∧
    s'.cupcake_balances a = s.cupcake_balances a + 1 := by
  rw [give_eq] at hs
  by_cases hc : (s.cupcake_distribution_times a + 5) % U256_MOD ≤ now
  · rw [if_pos hc] at hs
    simp only [Except.ok.injEq, Prod.mk.injEq, true_and] at hs
    subst hs
    constructor
    · simp [successState]
    · simp [successState, Nat.mod_eq_of_lt hbal]
  · rw [if_neg hc] at hs
    simp at hs

theorem c2_success_effect_witness :
    (giveRun initialState 5 0).2.cupcake_distribution_times 0 = 5 ∧
    (giveRun initialState 5 0).2.cupcake_balances 0 = initialState.cupcake_balances 0 + 1 :=
  c2_success_effect initialState 5 0 (giveRun initialState 5 0).2
    (give_cupcake_to_ok initialState 5 0) (by decide)

/-- C3: a refused `give_cupcake_to` (returning `false`) leaves the storage
exactly as it was: the `else` branch performs no write. -/
theorem c3_refusal_no_mutation (s : VendingMachine) (now : Nat) (a : Account)
    (s' : VendingMachine) (hs : give_cupcake_to s now a = Except.ok (false, s')) :
    s' = s := by
  rw [give_eq] at hs
  by_cases hc : (s.cupcake_distribution_times a + 5) % U256_MOD ≤ now
  · rw [if_pos hc] at hs
    simp at hs
  · rw [if_neg hc] at hs
    simp only [Except.ok.injEq, Prod.mk.injEq, true_and] at hs
    exact hs.symm

theorem c3_refusal_no_mutation_witness :
    (giveRun (giveRun initialState 5 0).2 6 0).2 = (giveRun initialState 5 0).2 :=
  c3_refusal_no_mutation (giveRun initialState 5 0).2 6 0
    (giveRun (giveRun initialState 5 0).2 6 0).2
    (give_cupcake_to_ok (giveRun initialState 5 0).2 6 0)

/-- C4: along any sequence of `give_cupcake_to` invocations with `u64` host
times, executed with non-decreasing host times, any two successful grants to
the same account at host times `t₁ < t₂` are at least the 5-second cooldown
apart. -/
theorem c4_cooldown_law (evs : List (Account × Nat))
    (hv : ∀ e ∈ evs, e.2 < U64_MOD) (_hnd : timesNondec evs = true)
    (a : Account) (t₁ t₂ : Nat)
    (h₁ : (a, t₁, true) ∈ giveTrace initialState evs)
    (h₂ : (a, t₂, true) ∈ giveTrace initialState evs)
    (hlt : t₁ < t₂) : t₁ + 5 ≤ t₂ :=
  cooldown_pairs_general evs initialState hv a t₁ t₂ h₁ h₂ hlt

theorem c4_cooldown_law_witness : 10 + 5 ≤ 16 :=
  c4_cooldown_law [(0, 10), (0, 16)] (by decide) (by decide) 0 10 16
    (by decide) (by decide) (by decide)

/-- C5 (refuting evaluation): with `cupcake_balances[0] = 2^256 - 1` a grant
at host time 5 still returns `true` and silently wraps the balance to 0 —
the `+ U256::from(1)` increment is `ruint`'s modular addition, not checked
arithmetic, so the transaction is not aborted as the spec requires. -/
theorem c5_balance_wraps :
    (giveRun overflowState 5 0).1 = true ∧
    (giveRun overflowState 5 0).2.cupcake_balances 0 = 0 := by
  rw [giveRun_eq]
  norm_num [overflowState, successState, U256_MOD]

/-- C6: starting from the all-zero storage, the domain-coupling predicate
(`balances[a] = 0 → last_grant_at[a] = 0`, and `last_grant_at[a] ≠ 0 →
balances[a] ≥ 1`) holds after every sequence of `give_cupcake_to` and
`get_cupcake_balance_for` invocations with `u64` host times. -/
theorem c6_coupling_invariant (ops : List Op) (hops : ∀ op ∈ ops, op.valid) :
    coupling (run initialState ops) :=
  coupling_run initialState ops hops timeBoundInv_initial coupling_initial

theorem c6_coupling_invariant_witness :
    coupling (run initialState [Op.give 0 7, Op.getBalance 0]) :=
  c6_coupling_invariant [Op.give 0 7, Op.getBalance 0] (by decide)

/-- C7: any `give_cupcake_to(a)` call, granted or refused, leaves the balance
and distribution time of every other account `b ≠ a` untouched. -/
theorem c7_account_isolation (s : VendingMachine) (now : Nat) (a : Account)
    (g : Bool) (s' : VendingMachine)
    (hs : give_cupcake_to s now a = Except.ok (g, s')) (b : Account) (hne : b ≠ a) :
    s'.cupcake_balances b = s.cupcake_balances b ∧
    s'.cupcake_distribution_times b = s.cupcake_distribution_times b := by
  rw [give_eq] at hs
  by_cases hc : (s.cupcake_distribution_times a + 5) % U256_MOD ≤ now
  · rw [if_pos hc] at hs
    simp only [Except.ok.injEq, Prod.mk.injEq] at hs
    rw [← hs.2]
    exact ⟨successState_balances_other s now a b hne, successState_times_other s now a b hne⟩
  · rw [if_neg hc] at hs
    simp only [Except.ok.injEq, Prod.mk.injEq] at hs
    rw [← hs.2]
    exact ⟨rfl, rfl⟩

theorem c7_account_isolation_witness :
    (giveRun initialState 5 0).2.cupcake_balances 1 = initialState.cupcake_balances 1 ∧
    (giveRun initialState 5 0).2.cupcake_distribution_times 1 =
      initialState.cupcake_distribution_times 1 :=
  c7_account_isolation initialState 5 0 (giveRun initialState 5 0).1
    (giveRun initialState 5 0).2
    (by rw [give_cupcake_to_ok initialState 5 0]) 1 (by decide)

/-- C8: for any fixed account, the stored balance is non-decreasing along any
sequence of contract invocations (with `u64` host times): from any state
reachable from the all-zero initial storage, further invocations can only
keep or raise the balance. -/
theorem c8_balance_monotone (ops₁ ops₂ : List Op)
    (h₁ : ∀ op ∈ ops₁, op.valid) (h₂ : ∀ op ∈ ops₂, op.valid) (a : Account) :
    (run initialState ops₁).cupcake_balances a ≤
      (run (run initialState ops₁) ops₂).cupcake_balances a :=
  balances_mono_run (run initialState ops₁) ops₂ h₂
    (timeBoundInv_run initialState ops₁ h₁ timeBoundInv_initial) a

theorem c8_balance_monotone_witness :
    (run initialState [Op.give 0 10]).cupcake_balances 0 ≤
      (run (run initialState [Op.give 0 10]) [Op.give 0 20, Op.getBalance 0]).cupcake_balances 0 :=
  c8_balance_monotone [Op.give 0 10] [Op.give 0 20, Op.getBalance 0]
    (by decide) (by decide) 0

/-- C9: `get_cupcake_balance_for(a)` returns exactly the stored
`cupcake_balances[a]` (0 on a fresh deployment, where no account has ever
been granted), and — being a `&self` read — leaves the storage unchanged. -/
theorem c9_balance_query (s : VendingMachine) (a : Account) :
    get_cupcake_balance_for s a = Except.ok (s.cupcake_balances a) ∧
    step s (Op.getBalance a) = s ∧
    get_cupcake_balance_for initialState a = Except.ok 0 :=
  ⟨rfl, rfl, rfl⟩
